import Mathlib

/-!
Verification of the `space` computational-geometry library
(`include/Polygon.h`, `include/SimplePolygon.h`, exercised by
`tests/SpaceUtil.cc`) against its natural-language specification.

Coordinates are modelled by `Int`: the C++ types are templates over an
arbitrary numeric scalar, the unit tests instantiate them at `int32_t`,
and the specification makes overflow the caller's responsibility, so the
exact-integer model is the faithful one.  A thrown `std::out_of_range`
is modelled by `Except GeomError`; geometric points of the plane (for
the segment-intersection characterisation) live in `ℝ × ℝ`.

The headers `Point.h`, `Rect.h`, `Segment.h` and `Utility.h` are not
among the available sources (only their callers and tests are); the
definitions taken from them are marked `Modelled from the spec:` and
follow the specification's wording.
-/

namespace Space

/-- Modelled from the spec: `space::Point<C>` (`Point.h` is not among the
available sources).  A 2D coordinate pair with attributes `x`, `y`. -/
structure Point where
  x : Int
  y : Int
deriving DecidableEq, Repr

/-- Modelled from the spec: `space::util::move(point, dx, dy)` (`Utility.h`
or `Point.h`, not among the available sources): translates the point in
place, no failure conditions. -/
def movePoint (p : Point) (dx dy : Int) : Point :=
  { x := p.x + dx, y := p.y + dy }

/-- Modelled from the spec: the default ordering on points (`Point.h`'s
defaulted comparison, not among the available sources); per the spec it
compares `x` first and then `y` (lexicographic, component-wise). -/
def ptLt (a b : Point) : Bool :=
  decide (a.x < b.x) || (decide (a.x = b.x) && decide (a.y < b.y))

/-- Modelled from the spec: `space::Rect<C>` (`Rect.h` is not among the
available sources): `position` is the bottom-left corner, plus `width`
and `height`; equality compares all defining attributes. -/
structure Rect where
  position : Point
  width : Int
  height : Int
deriving DecidableEq, Repr

/-- Modelled from the spec: the two-corner constructor of `Rect`
(bottom-left point and top-right point). -/
def Rect.ofPoints (bl tr : Point) : Rect :=
  { position := bl, width := tr.x - bl.x, height := tr.y - bl.y }

/-- Modelled from the spec: `space::Segment<C>` (`Segment.h` is not among
the available sources): an ordered pair of endpoints. -/
structure Segment where
  first : Point
  second : Point
deriving DecidableEq, Repr

/-- The failure channel modelling a thrown `std::out_of_range`. -/
inductive GeomError where
  | outOfRange
deriving DecidableEq, Repr

/-- `space::SimplePolygon<TCrt>` (`SimplePolygon.h`): the boundary is an
ordered point sequence (`m_piecewiseLinearCurve`). -/
structure SimplePolygon where
  piecewiseLinearCurve : List Point
deriving DecidableEq, Repr

/-- `SimplePolygon::empty` (`SimplePolygon.h` lines 78-82). -/
def SimplePolygon.empty (sp : SimplePolygon) : Bool :=
  sp.piecewiseLinearCurve.isEmpty

/-- `SimplePolygon::boundaryCurve` (`SimplePolygon.h` lines 91-112):
throws `std::out_of_range` when the polygon is empty, otherwise returns
the boundary.  The mutable overload delegates to the const one through
`const_cast`, so a single definition models both. -/
def SimplePolygon.boundaryCurve (sp : SimplePolygon) : Except GeomError (List Point) :=
  if sp.empty then Except.error GeomError.outOfRange
  else Except.ok sp.piecewiseLinearCurve

/-- `space::util::move` on a SimplePolygon (`SimplePolygon.h` lines
133-141): calls `boundaryCurve()` (which throws on an empty polygon, and
the function is `noexcept`) and translates each boundary point. -/
def moveSimplePolygon (sp : SimplePolygon) (dx dy : Int) : Except GeomError SimplePolygon :=
  Except.map (fun c => { piecewiseLinearCurve := c.map (fun p => movePoint p dx dy) })
    sp.boundaryCurve

/-- One step of `std::ranges::minmax_element`: keep the first minimal and
the last maximal element with respect to `ptLt`. -/
def minmaxStep (mm : Point × Point) (p : Point) : Point × Point :=
  (if ptLt p mm.1 then p else mm.1, if ptLt p mm.2 then mm.2 else p)

/-- `std::ranges::minmax_element` over a non-empty range `f :: rest`,
with the default (lexicographic) point ordering. -/
def minmaxElement (f : Point) (rest : List Point) : Point × Point :=
  rest.foldl minmaxStep (f, f)

/-- `space::util::boundaryBoxOf` (`SimplePolygon.h` lines 152-157): calls
`poly.boundaryCurve()` (which throws on an empty polygon), then takes
`minmax_element` under the default lexicographic point order and builds
the Rect from those two points. -/
def boundaryBoxOf (sp : SimplePolygon) : Except GeomError Rect :=
  match sp.piecewiseLinearCurve with
  | [] => Except.error GeomError.outOfRange
  | f :: rest =>
    let mm := minmaxElement f rest
    Except.ok (Rect.ofPoints mm.1 mm.2)

/-- The bounding box the specification asks for (spec sections 4.4 and 9):
an explicit per-axis reduction, bottom-left `(min x, min y)` and
top-right `(max x, max y)` over all boundary points.  Stated here only to
be compared with the source's `boundaryBoxOf`. -/
def boundingBoxPerAxis (sp : SimplePolygon) : Except GeomError Rect :=
  match sp.piecewiseLinearCurve with
  | [] => Except.error GeomError.outOfRange
  | f :: rest =>
    Except.ok (Rect.ofPoints
      { x := rest.foldl (fun m p => min m p.x) f.x, y := rest.foldl (fun m p => min m p.y) f.y }
      { x := rest.foldl (fun m p => max m p.x) f.x, y := rest.foldl (fun m p => max m p.y) f.y })

/-- `space::Polygon<TCrd>` (`Polygon.h`): a polygon is a sequence of
contours (`m_arrContours`); the first is the outer boundary, the rest
are holes. -/
structure Polygon where
  arrContours : List (List Point)
deriving DecidableEq, Repr

/-- The `(boundary, holes)` constructor (`Polygon.h` lines 69-75): always
pushes the boundary contour first, then moves in the hole contours. -/
def Polygon.ofBoundaryAndHoles (boundary : List Point) (holes : List (List Point)) : Polygon :=
  { arrContours := boundary :: holes }

/-- `Polygon::empty` (`Polygon.h` lines 83-87). -/
def Polygon.empty (p : Polygon) : Bool :=
  p.arrContours.isEmpty

/-- `Polygon::boundary` (`Polygon.h` lines 96-117): throws
`std::out_of_range` when the polygon is empty, otherwise returns the
front contour.  The mutable overload delegates to the const one through
`const_cast`, so a single definition models both. -/
def Polygon.boundary (p : Polygon) : Except GeomError (List Point) :=
  match p.arrContours with
  | [] => Except.error GeomError.outOfRange
  | c :: _ => Except.ok c

/-- `Polygon::hasHoles` (`Polygon.h` lines 124-128). -/
def Polygon.hasHoles (p : Polygon) : Bool :=
  decide (1 < p.arrContours.length)

/-- `Polygon::holes` (`Polygon.h` lines 136-160): an empty span when
there are no holes, otherwise the subspan of all contours after the
first.  Both overloads return the same view, modelled as the list of
hole contours. -/
def Polygon.holesOf (p : Polygon) : List (List Point) :=
  if p.hasHoles then p.arrContours.drop 1 else []

/-- Modelled from the spec: `space::util::move` on a Polygon (`Utility.h`
is not among the available sources; spec section 4.5 and the
`MovePolygon` test): translates the boundary and every hole contour
together, with no failure conditions. -/
def movePolygon (p : Polygon) (dx dy : Int) : Polygon :=
  { arrContours := p.arrContours.map (fun c => c.map (fun pt => movePoint pt dx dy)) }

/-- Modelled from the spec: the orientation test of `Utility.h` (not
among the available sources): the 2D cross product of the vectors
`b - a` and `c - a`; its sign classifies the turn `a, b, c`. -/
def cross (a b c : Point) : Int :=
  (b.x - a.x) * (c.y - a.y) - (b.y - a.y) * (c.x - a.x)

/-- Modelled from the spec: the on-segment bounding-box fallback of
`Utility.h` (not among the available sources): point `r` lies within
`[min(p,q), max(p,q)]` on each axis.  It is only consulted when the
matching orientation is zero, i.e. when `p`, `r`, `q` are collinear. -/
def onSegmentBox (p r q : Point) : Bool :=
  decide (min p.x q.x ≤ r.x) && decide (r.x ≤ max p.x q.x) &&
  decide (min p.y q.y ≤ r.y) && decide (r.y ≤ max p.y q.y)

/-- Modelled from the spec: `space::util::hesIntersect` on two segments
(`Utility.h` is not among the available sources; spec section 4.2): the
four orientations `(p1,q1,p2)`, `(p1,q1,q2)`, `(p2,q2,p1)`, `(p2,q2,q1)`;
a proper crossing when the two orientation pairs have strictly opposite,
non-zero signs; and the four independent collinear fallbacks combined
with logical OR. -/
def hesIntersect (s1 s2 : Segment) : Bool :=
  let p1 := s1.first
  let q1 := s1.second
  let p2 := s2.first
  let q2 := s2.second
  let o1 := cross p1 q1 p2
  let o2 := cross p1 q1 q2
  let o3 := cross p2 q2 p1
  let o4 := cross p2 q2 q1
  (decide ((0 < o1 ∧ o2 < 0) ∨ (o1 < 0 ∧ 0 < o2)) &&
   decide ((0 < o3 ∧ o4 < 0) ∨ (o3 < 0 ∧ 0 < o4))) ||
  (decide (o1 = 0) && onSegmentBox p1 p2 q1) ||
  (decide (o2 = 0) && onSegmentBox p1 q2 q1) ||
  (decide (o3 = 0) && onSegmentBox p2 p1 q2) ||
  (decide (o4 = 0) && onSegmentBox p2 q1 q2)

/-- The point of the real plane at parameter `t` along the segment from
`a` to `b`. -/
def segPt (a b : Point) (t : ℝ) : ℝ × ℝ :=
  ((a.x : ℝ) + t * ((b.x : ℝ) - (a.x : ℝ)), (a.y : ℝ) + t * ((b.y : ℝ) - (a.y : ℝ)))

/-- `r` is a point of the closed segment with endpoints `a`, `b` in the
real plane: the geometric meaning of "the segments share a point". -/
def onSeg (a b : Point) (r : ℝ × ℝ) : Prop :=
  ∃ t : ℝ, 0 ≤ t ∧ t ≤ 1 ∧ r = segPt a b t

/-- The orientation form extended to a real point in the third slot. -/
def crossR (a b : Point) (r : ℝ × ℝ) : ℝ :=
  ((b.x : ℝ) - (a.x : ℝ)) * (r.2 - (a.y : ℝ)) - ((b.y : ℝ) - (a.y : ℝ)) * (r.1 - (a.x : ℝ))

/-- The canonical embedding of an integer point into the real plane. -/
def castPt (p : Point) : ℝ × ℝ :=
  ((p.x : ℝ), (p.y : ℝ))

/-- The real-plane reading of the bounding-box test `onSegmentBox`. -/
def boxR (a b : Point) (r : ℝ × ℝ) : Prop :=
  min (a.x : ℝ) (b.x : ℝ) ≤ r.1 ∧ r.1 ≤ max (a.x : ℝ) (b.x : ℝ) ∧
  min (a.y : ℝ) (b.y : ℝ) ≤ r.2 ∧ r.2 ≤ max (a.y : ℝ) (b.y : ℝ)

/-- C4: for both `Polygon::boundary` and `SimplePolygon::boundaryCurve`,
the out-of-range failure is raised exactly when the polygon is empty
(and, the failure channel being `Except`, no silent default value is
ever produced); the const and mutable accessors are a single model. -/
theorem claim4_boundary_fails_iff_empty :
    (∀ p : Polygon, p.boundary = Except.error GeomError.outOfRange ↔ p.empty = true) ∧
    (∀ sp : SimplePolygon,
      sp.boundaryCurve = Except.error GeomError.outOfRange ↔ sp.empty = true) := by
  constructor
  · intro p
    cases h : p.arrContours <;>
      simp [Polygon.boundary, Polygon.empty, h]
  · intro sp
    cases h : sp.piecewiseLinearCurve <;>
      simp [SimplePolygon.boundaryCurve, SimplePolygon.empty, h]

/-- C7: a polygon built from a boundary and a hole list has holes
exactly when the hole list is non-empty, and `holes()` yields exactly
the hole contours that were passed, in insertion order. -/
theorem claim7_holes_view (b : List Point) (hs : List (List Point)) :
    ((Polygon.ofBoundaryAndHoles b hs).hasHoles = true ↔ hs ≠ []) ∧
    (Polygon.ofBoundaryAndHoles b hs).holesOf = hs := by
  constructor
  · cases hs <;> simp [Polygon.ofBoundaryAndHoles, Polygon.hasHoles]
  · cases hs <;> simp [Polygon.ofBoundaryAndHoles, Polygon.holesOf, Polygon.hasHoles]

/-- C9: every polygon produced by the `(boundary, holes)` constructor is
non-empty, even when the boundary contour has zero points; `empty()` is
true for the default-constructed polygon only. -/
theorem claim9_constructed_polygon_nonempty :
    (∀ (b : List Point) (hs : List (List Point)),
      (Polygon.ofBoundaryAndHoles b hs).empty = false) ∧
    (Polygon.mk []).empty = true := by
  constructor
  · intro b hs
    simp [Polygon.ofBoundaryAndHoles, Polygon.empty]
  · rfl

/-- C8: the boundary box of `{(0,0),(1,1),(12,14),(124,444),(2,2)}` is
the rect spanning `(0,0)` to `(124,444)`. -/
theorem claim8_bbox_concrete :
    boundaryBoxOf
      { piecewiseLinearCurve :=
          [{ x := 0, y := 0 }, { x := 1, y := 1 }, { x := 12, y := 14 },
           { x := 124, y := 444 }, { x := 2, y := 2 }] } =
    Except.ok (Rect.ofPoints { x := 0, y := 0 } { x := 124, y := 444 }) := rfl

/-- C10: `boundaryBoxOf` has no emptiness guard of its own: on an empty
simple polygon it reaches the out-of-range failure of `boundaryCurve()`
and returns no rect. -/
theorem claim10_bbox_empty_fails (sp : SimplePolygon) (h : sp.empty = true) :
    boundaryBoxOf sp = Except.error GeomError.outOfRange := by
  cases hc : sp.piecewiseLinearCurve with
  | nil => simp [boundaryBoxOf, hc]
  | cons f rest =>
    exfalso
    simp [SimplePolygon.empty, hc] at h

/-- Witness for C10 at the concrete empty polygon. -/
theorem claim10_witness :
    (SimplePolygon.mk []).empty = true ∧
    boundaryBoxOf (SimplePolygon.mk []) = Except.error GeomError.outOfRange :=
  ⟨rfl, claim10_bbox_empty_fails (SimplePolygon.mk []) rfl⟩

/-- C1 (failing side): `space::util::move` on a SimplePolygon is not a
no-op on the empty polygon — it calls `boundaryCurve()`, which raises
the out-of-range failure (inside a `noexcept` function). -/
theorem claim1_move_empty_polygon_fails (dx dy : Int) :
    moveSimplePolygon (SimplePolygon.mk []) dx dy = Except.error GeomError.outOfRange := rfl

/-- C2 (failing side): on the boundary `{(0,5),(5,0)}` the source's
`boundaryBoxOf` picks the lexicographic extremes `(0,5)` and `(5,0)` and
returns a rect of height `-5`, while the axis-aligned bounding box of
those points spans `(0,0)` to `(5,5)`. -/
theorem claim2_bbox_lexicographic_diverges :
    boundaryBoxOf (SimplePolygon.mk [{ x := 0, y := 5 }, { x := 5, y := 0 }]) =
      Except.ok { position := { x := 0, y := 5 }, width := 5, height := -5 } ∧
    boundingBoxPerAxis (SimplePolygon.mk [{ x := 0, y := 5 }, { x := 5, y := 0 }]) =
      Except.ok { position := { x := 0, y := 0 }, width := 5, height := 5 } ∧
    ({ position := { x := 0, y := 5 }, width := 5, height := -5 } : Rect) ≠
      { position := { x := 0, y := 0 }, width := 5, height := 5 } := by
  refine ⟨rfl, rfl, by decide⟩

/-- C5: translating a polygon (boundary and holes together) by
`(dx, dy)` and then by `(-dx, -dy)` restores every coordinate exactly
over the exact integer scalar model. -/
theorem claim5_move_roundtrip (p : Polygon) (dx dy : Int) :
    movePolygon (movePolygon p dx dy) (-dx) (-dy) = p := by
  cases p with
  | mk cs =>
    have hpt : ∀ pt : Point, movePoint (movePoint pt dx dy) (-dx) (-dy) = pt := by
      intro pt
      cases pt with
      | mk x y =>
        simp [movePoint]
    have hco : ((fun pt => movePoint pt (-dx) (-dy)) ∘ fun pt => movePoint pt dx dy) = id :=
      funext hpt
    simp [movePolygon, List.map_map, hco, List.map_id]

/-- The orientation form at a cast integer point agrees with the integer
orientation. -/
theorem crossR_castPt (a b c : Point) : crossR a b (castPt c) = (cross a b c : ℝ) := by
  unfold crossR castPt cross
  push_cast
  ring

/-- The orientation form is affine along a parametrised segment. -/
theorem crossR_segPt (a b c d : Point) (t : ℝ) :
    crossR a b (segPt c d t) =
      (1 - t) * (cross a b c : ℝ) + t * (cross a b d : ℝ) := by
  unfold crossR segPt cross
  push_cast
  ring

/-- The first endpoint of the orientation base is collinear with it. -/
theorem cross_base_left (a b : Point) : cross a b a = 0 := by
  unfold cross
  ring

/-- The second endpoint of the orientation base is collinear with it. -/
theorem cross_base_right (a b : Point) : cross a b b = 0 := by
  unfold cross
  ring

/-- Parameter `0` of a segment is its first endpoint. -/
theorem segPt_zero (a b : Point) : segPt a b 0 = castPt a := by
  unfold segPt castPt
  norm_num

/-- Parameter `1` of a segment is its second endpoint. -/
theorem segPt_one (a b : Point) : segPt a b 1 = castPt b := by
  unfold segPt castPt
  norm_num

/-- A segment contains its first endpoint. -/
theorem onSeg_left (a b : Point) : onSeg a b (castPt a) :=
  ⟨0, le_refl 0, zero_le_one, (segPt_zero a b).symm⟩

/-- A segment contains its second endpoint. -/
theorem onSeg_right (a b : Point) : onSeg a b (castPt b) :=
  ⟨1, zero_le_one, le_refl 1, (segPt_one a b).symm⟩

/-- The cast of integer points into the real plane is injective. -/
theorem castPt_inj {p q : Point} (h : castPt p = castPt q) : p = q := by
  cases p with
  | mk px py =>
    cases q with
    | mk qx qy =>
      simp only [castPt, Prod.mk.injEq] at h
      obtain ⟨h1, h2⟩ := h
      have hx : px = qx := by exact_mod_cast h1
      have hy : py = qy := by exact_mod_cast h2
      rw [hx, hy]

/-- Distinct integer points differ in a coordinate even after casting. -/
theorem ne_cast_coords {p q : Point} (h : p ≠ q) :
    ((q.x : ℝ) - (p.x : ℝ) ≠ 0) ∨ ((q.y : ℝ) - (p.y : ℝ) ≠ 0) := by
  by_contra hc
  push_neg at hc
  obtain ⟨h1, h2⟩ := hc
  apply h
  apply castPt_inj
  unfold castPt
  have hx : (p.x : ℝ) = (q.x : ℝ) := by linarith
  have hy : (p.y : ℝ) = (q.y : ℝ) := by linarith
  rw [hx, hy]

/-- A point of `[0,1]`-parameter along a 1D segment stays between the
endpoints. -/
theorem interval_param_mem (u v t : ℝ) (h0 : 0 ≤ t) (h1 : t ≤ 1) :
    min u v ≤ u + t * (v - u) ∧ u + t * (v - u) ≤ max u v := by
  rcases le_total u v with h | h
  · rw [min_eq_left h, max_eq_right h]
    constructor <;> nlinarith
  · rw [min_eq_right h, max_eq_left h]
    constructor <;> nlinarith

/-- Conversely, a line point between two distinct 1D endpoints has its
parameter in `[0,1]`. -/
theorem param_bounds_of_interval (u v t : ℝ) (hne : u ≠ v)
    (hlo : min u v ≤ u + t * (v - u)) (hhi : u + t * (v - u) ≤ max u v) :
    0 ≤ t ∧ t ≤ 1 := by
  rcases hne.lt_or_lt with h | h
  · rw [min_eq_left h.le, max_eq_right h.le] at *
    constructor <;> nlinarith
  · rw [min_eq_right h.le, max_eq_left h.le] at *
    constructor <;> nlinarith

/-- The boolean box test of the source is the real-plane box predicate at
a cast point. -/
theorem onSegmentBox_iff_boxR (p r q : Point) :
    onSegmentBox p r q = true ↔ boxR p q (castPt r) := by
  simp only [onSegmentBox, Bool.and_eq_true, decide_eq_true_eq, boxR, castPt]
  constructor
  · rintro ⟨⟨⟨h1, h2⟩, h3⟩, h4⟩
    exact ⟨by exact_mod_cast h1, by exact_mod_cast h2,
           by exact_mod_cast h3, by exact_mod_cast h4⟩
  · rintro ⟨h1, h2, h3, h4⟩
    exact ⟨⟨⟨by exact_mod_cast h1, by exact_mod_cast h2⟩,
           by exact_mod_cast h3⟩, by exact_mod_cast h4⟩

/-- A real point collinear with two distinct integer points lies on the
line through them, parametrically. -/
theorem line_param (p q : Point) (hpq : p ≠ q) (r : ℝ × ℝ)
    (hc : crossR p q r = 0) : ∃ t : ℝ, r = segPt p q t := by
  unfold crossR at hc
  rcases ne_cast_coords hpq with hx | hy
  · refine ⟨(r.1 - (p.x : ℝ)) / ((q.x : ℝ) - (p.x : ℝ)), ?_⟩
    rw [Prod.ext_iff]
    unfold segPt
    constructor
    · show r.1 = (p.x : ℝ) + (r.1 - (p.x : ℝ)) / ((q.x : ℝ) - (p.x : ℝ)) * ((q.x : ℝ) - (p.x : ℝ))
      field_simp
    · show r.2 = (p.y : ℝ) + (r.1 - (p.x : ℝ)) / ((q.x : ℝ) - (p.x : ℝ)) * ((q.y : ℝ) - (p.y : ℝ))
      field_simp
      linarith [hc]
  · refine ⟨(r.2 - (p.y : ℝ)) / ((q.y : ℝ) - (p.y : ℝ)), ?_⟩
    rw [Prod.ext_iff]
    unfold segPt
    constructor
    · show r.1 = (p.x : ℝ) + (r.2 - (p.y : ℝ)) / ((q.y : ℝ) - (p.y : ℝ)) * ((q.x : ℝ) - (p.x : ℝ))
      field_simp
      linarith [hc]
    · show r.2 = (p.y : ℝ) + (r.2 - (p.y : ℝ)) / ((q.y : ℝ) - (p.y : ℝ)) * ((q.y : ℝ) - (p.y : ℝ))
      field_simp

/-- For distinct endpoints, the box predicate at a parametrised point of
their line is exactly the `[0,1]` parameter range. -/
theorem boxR_segPt_iff (p q : Point) (hpq : p ≠ q) (t : ℝ) :
    boxR p q (segPt p q t) ↔ (0 ≤ t ∧ t ≤ 1) := by
  unfold boxR segPt
  constructor
  · rintro ⟨h1, h2, h3, h4⟩
    rcases ne_cast_coords hpq with hx | hy
    · exact param_bounds_of_interval (p.x : ℝ) (q.x : ℝ) t
        (fun he => hx (by linarith)) h1 h2
    · exact param_bounds_of_interval (p.y : ℝ) (q.y : ℝ) t
        (fun he => hy (by linarith)) h3 h4
  · rintro ⟨ht0, ht1⟩
    have hx := interval_param_mem (p.x : ℝ) (q.x : ℝ) t ht0 ht1
    have hy := interval_param_mem (p.y : ℝ) (q.y : ℝ) t ht0 ht1
    exact ⟨hx.1, hx.2, hy.1, hy.2⟩

/-- Membership in a non-degenerate segment is collinearity plus the box
test. -/
theorem onSeg_iff_cross_box (p q : Point) (hpq : p ≠ q) (r : ℝ × ℝ) :
    onSeg p q r ↔ crossR p q r = 0 ∧ boxR p q r := by
  constructor
  · rintro ⟨t, ht0, ht1, rfl⟩
    refine ⟨?_, (boxR_segPt_iff p q hpq t).mpr ⟨ht0, ht1⟩⟩
    rw [crossR_segPt, cross_base_left, cross_base_right]
    norm_num
  · rintro ⟨hc, hb⟩
    obtain ⟨t, rfl⟩ := line_param p q hpq r hc
    obtain ⟨ht0, ht1⟩ := (boxR_segPt_iff p q hpq t).mp hb
    exact ⟨t, ht0, ht1, rfl⟩

/-- Membership in a degenerate (single-point) segment. -/
theorem onSeg_self_iff (a : Point) (r : ℝ × ℝ) :
    onSeg a a r ↔ r = castPt a := by
  constructor
  · rintro ⟨t, _, _, rfl⟩
    unfold segPt castPt
    norm_num
  · rintro rfl
    exact onSeg_left a a

/-- An orientation with equal base endpoints vanishes, contrapositively:
a non-zero orientation has a non-degenerate base. -/
theorem ne_of_cross_ne {p q c : Point} (h : cross p q c ≠ 0) : p ≠ q := by
  intro he
  apply h
  rw [he]
  unfold cross
  ring

/-- 2D cross-product transfer: two vectors separately parallel to a
non-zero vector are parallel to each other. -/
theorem cross_aux (ux uy vx vy wx wy : Int) (hu : ux ≠ 0 ∨ uy ≠ 0)
    (h1 : ux * vy - uy * vx = 0) (h2 : ux * wy - uy * wx = 0) :
    vx * wy - vy * wx = 0 := by
  rcases hu with h | h
  · have key : ux * (vx * wy - vy * wx) =
        vx * (ux * wy - uy * wx) - wx * (ux * vy - uy * vx) := by ring
    rw [h1, h2] at key
    simp only [mul_zero, sub_zero] at key
    rcases mul_eq_zero.mp key with hc | hc
    · exact absurd hc h
    · exact hc
  · have key : uy * (vx * wy - vy * wx) =
        vy * (ux * wy - uy * wx) - wy * (ux * vy - uy * vx) := by ring
    rw [h1, h2] at key
    simp only [mul_zero, sub_zero] at key
    rcases mul_eq_zero.mp key with hc | hc
    · exact absurd hc h
    · exact hc

/-- Non-degenerate components of distinct integer points. -/
theorem ne_coords {p q : Point} (h : p ≠ q) :
    q.x - p.x ≠ 0 ∨ q.y - p.y ≠ 0 := by
  by_contra hc
  push_neg at hc
  obtain ⟨h1, h2⟩ := hc
  apply h
  cases p with
  | mk px py =>
    cases q with
    | mk qx qy =>
      simp only at h1 h2
      have hx : px = qx := by omega
      have hy : py = qy := by omega
      rw [hx, hy]

/-- If two points are each collinear with a non-degenerate base, the
orientations based at those two points also vanish on the base's
endpoints. -/
theorem cross_zero_transfer {p q a b : Point} (hpq : p ≠ q)
    (h1 : cross p q a = 0) (h2 : cross p q b = 0) :
    cross a b p = 0 ∧ cross a b q = 0 := by
  unfold cross at h1 h2
  have hu := ne_coords hpq
  constructor
  · have haux := cross_aux (q.x - p.x) (q.y - p.y)
      (a.x - p.x) (a.y - p.y) (b.x - p.x) (b.y - p.y) hu
      (by linear_combination h1) (by linear_combination h2)
    unfold cross
    linear_combination haux
  · have h1q : (q.x - p.x) * (a.y - q.y) - (q.y - p.y) * (a.x - q.x) = 0 := by
      linear_combination h1
    have h2q : (q.x - p.x) * (b.y - q.y) - (q.y - p.y) * (b.x - q.x) = 0 := by
      linear_combination h2
    have haux := cross_aux (q.x - p.x) (q.y - p.y)
      (a.x - q.x) (a.y - q.y) (b.x - q.x) (b.y - q.y) hu
      (by linear_combination h1q) (by linear_combination h2q)
    unfold cross
    linear_combination haux

/-- Soundness of a collinear fallback branch: a zero orientation plus the
box test puts the tested point on the segment. -/
theorem onSeg_of_collinear_box (a b c : Point) (h0 : cross a b c = 0)
    (hb : onSegmentBox a c b = true) : onSeg a b (castPt c) := by
  by_cases hab : a = b
  · subst hab
    obtain ⟨h1, h2, h3, h4⟩ := (onSegmentBox_iff_boxR a c a).mp hb
    simp only [min_self, max_self] at h1 h2 h3 h4
    rw [onSeg_self_iff]
    unfold castPt
    rw [Prod.ext_iff]
    exact ⟨le_antisymm h2 h1, le_antisymm h4 h3⟩
  · rw [onSeg_iff_cross_box a b hab]
    refine ⟨?_, (onSegmentBox_iff_boxR a c b).mp hb⟩
    rw [crossR_castPt, h0]
    norm_num

/-- Bounds for the crossing parameter built from two strictly opposite
orientations. -/
theorem div_param_bounds (a b : ℝ) (ha : 0 < a) (hb : b < 0) :
    0 ≤ a / (a - b) ∧ a / (a - b) ≤ 1 := by
  have hd : 0 < a - b := by linarith
  exact ⟨div_nonneg ha.le hd.le, (div_le_one hd).mpr (by linarith)⟩

/-- The crossing parameter of a strictly opposite orientation pair lies
in `[0,1]` (both sign layouts). -/
theorem opp_signs_param (a b : Int)
    (h : (0 < a ∧ b < 0) ∨ (a < 0 ∧ 0 < b)) :
    0 ≤ (a : ℝ) / ((a : ℝ) - (b : ℝ)) ∧ (a : ℝ) / ((a : ℝ) - (b : ℝ)) ≤ 1 := by
  rcases h with ⟨h1, h2⟩ | ⟨h1, h2⟩
  · exact div_param_bounds (a : ℝ) (b : ℝ) (by exact_mod_cast h1) (by exact_mod_cast h2)
  · have c1 : (a : ℝ) < 0 := by exact_mod_cast h1
    have c2 : (0 : ℝ) < (b : ℝ) := by exact_mod_cast h2
    have hd : (a : ℝ) - (b : ℝ) ≠ 0 := by linarith
    have hd2 : (-(a : ℝ)) - (-(b : ℝ)) ≠ 0 := by intro hc; apply hd; linarith
    have heq : (a : ℝ) / ((a : ℝ) - (b : ℝ)) = (-(a : ℝ)) / ((-(a : ℝ)) - (-(b : ℝ))) := by
      rw [div_eq_div_iff hd hd2]
      ring
    rw [heq]
    exact div_param_bounds (-(a : ℝ)) (-(b : ℝ)) (by linarith) (by linarith)

/-- A strictly opposite orientation pair has a non-zero difference. -/
theorem opp_signs_den_ne (a b : Int)
    (h : (0 < a ∧ b < 0) ∨ (a < 0 ∧ 0 < b)) :
    ((a : ℝ) - (b : ℝ)) ≠ 0 := by
  rcases h with ⟨h1, h2⟩ | ⟨h1, h2⟩
  · have c1 : (0 : ℝ) < (a : ℝ) := by exact_mod_cast h1
    have c2 : (b : ℝ) < 0 := by exact_mod_cast h2
    linarith
  · have c1 : (a : ℝ) < 0 := by exact_mod_cast h1
    have c2 : (0 : ℝ) < (b : ℝ) := by exact_mod_cast h2
    linarith

/-- The x-coordinates of the two parametrisations of the crossing point
of two properly crossing segments agree: the 2D Jacobi identity. -/
theorem proper_component_x (p1 q1 p2 q2 : Point)
    (hd1 : ((cross p2 q2 p1 : ℝ) - (cross p2 q2 q1 : ℝ)) ≠ 0)
    (hd2 : ((cross p1 q1 p2 : ℝ) - (cross p1 q1 q2 : ℝ)) ≠ 0) :
    (p1.x : ℝ) + (cross p2 q2 p1 : ℝ) / ((cross p2 q2 p1 : ℝ) - (cross p2 q2 q1 : ℝ)) *
        ((q1.x : ℝ) - (p1.x : ℝ)) =
    (p2.x : ℝ) + (cross p1 q1 p2 : ℝ) / ((cross p1 q1 p2 : ℝ) - (cross p1 q1 q2 : ℝ)) *
        ((q2.x : ℝ) - (p2.x : ℝ)) := by
  unfold cross at *
  push_cast at *
  field_simp
  ring

/-- The y-coordinates of the two parametrisations of the crossing point
of two properly crossing segments agree. -/
theorem proper_component_y (p1 q1 p2 q2 : Point)
    (hd1 : ((cross p2 q2 p1 : ℝ) - (cross p2 q2 q1 : ℝ)) ≠ 0)
    (hd2 : ((cross p1 q1 p2 : ℝ) - (cross p1 q1 q2 : ℝ)) ≠ 0) :
    (p1.y : ℝ) + (cross p2 q2 p1 : ℝ) / ((cross p2 q2 p1 : ℝ) - (cross p2 q2 q1 : ℝ)) *
        ((q1.y : ℝ) - (p1.y : ℝ)) =
    (p2.y : ℝ) + (cross p1 q1 p2 : ℝ) / ((cross p1 q1 p2 : ℝ) - (cross p1 q1 q2 : ℝ)) *
        ((q2.y : ℝ) - (p2.y : ℝ)) := by
  unfold cross at *
  push_cast at *
  field_simp
  ring

/-- Soundness of the proper-crossing branch: strictly opposite, non-zero
orientation signs on both pairs produce a genuinely shared point. -/
theorem shared_of_proper (p1 q1 p2 q2 : Point)
    (h12 : (0 < cross p1 q1 p2 ∧ cross p1 q1 q2 < 0) ∨
           (cross p1 q1 p2 < 0 ∧ 0 < cross p1 q1 q2))
    (h34 : (0 < cross p2 q2 p1 ∧ cross p2 q2 q1 < 0) ∨
           (cross p2 q2 p1 < 0 ∧ 0 < cross p2 q2 q1)) :
    ∃ r : ℝ × ℝ, onSeg p1 q1 r ∧ onSeg p2 q2 r := by
  have hs01 := opp_signs_param (cross p2 q2 p1) (cross p2 q2 q1) h34
  have ht01 := opp_signs_param (cross p1 q1 p2) (cross p1 q1 q2) h12
  have hd1 := opp_signs_den_ne (cross p2 q2 p1) (cross p2 q2 q1) h34
  have hd2 := opp_signs_den_ne (cross p1 q1 p2) (cross p1 q1 q2) h12
  refine ⟨segPt p1 q1
    ((cross p2 q2 p1 : ℝ) / ((cross p2 q2 p1 : ℝ) - (cross p2 q2 q1 : ℝ))),
    ⟨_, hs01.1, hs01.2, rfl⟩,
    ⟨(cross p1 q1 p2 : ℝ) / ((cross p1 q1 p2 : ℝ) - (cross p1 q1 q2 : ℝ)),
      ht01.1, ht01.2, ?_⟩⟩
  unfold segPt
  rw [Prod.ext_iff]
  exact ⟨proper_component_x p1 q1 p2 q2 hd1 hd2, proper_component_y p1 q1 p2 q2 hd1 hd2⟩

/-- Two overlapping closed 1D intervals overlap at an endpoint of one of
them (stated for `[0,1]` against `[min a b, max a b]`). -/
theorem overlap_endpoint (a b s : ℝ) (hs0 : 0 ≤ s) (hs1 : s ≤ 1)
    (hmn : min a b ≤ s) (hmx : s ≤ max a b) :
    (0 ≤ a ∧ a ≤ 1) ∨ (0 ≤ b ∧ b ≤ 1) ∨ (min a b ≤ 0 ∧ 0 ≤ max a b) := by
  rcases le_total a b with hab | hab
  · rw [min_eq_left hab] at hmn ⊢
    rw [max_eq_right hab] at hmx ⊢
    rcases le_or_lt 0 a with h0 | h0
    · exact Or.inl ⟨h0, by linarith⟩
    · exact Or.inr (Or.inr ⟨by linarith, by linarith⟩)
  · rw [min_eq_right hab] at hmn ⊢
    rw [max_eq_left hab] at hmx ⊢
    rcases le_or_lt 0 b with h0 | h0
    · exact Or.inr (Or.inl ⟨h0, by linarith⟩)
    · exact Or.inr (Or.inr ⟨by linarith, by linarith⟩)

/-- A vanishing affine combination with parameter in `[0,1]` of two
non-zero reals forces strictly opposite signs. -/
theorem affine_zero_signs (x y t : ℝ) (hx : x ≠ 0) (hy : y ≠ 0)
    (ht0 : 0 ≤ t) (ht1 : t ≤ 1) (h : (1 - t) * x + t * y = 0) :
    (0 < x ∧ y < 0) ∨ (x < 0 ∧ 0 < y) := by
  rcases hx.lt_or_lt with hx1 | hx1 <;> rcases hy.lt_or_lt with hy1 | hy1
  · exfalso
    rcases eq_or_lt_of_le ht0 with h0 | h0
    · rw [← h0] at h
      norm_num at h
      exact absurd h hx
    · have hp1 : 0 < t * (-y) := mul_pos h0 (by linarith)
      have hp2 : 0 ≤ (1 - t) * (-x) := mul_nonneg (by linarith) (by linarith)
      nlinarith
  · exact Or.inr ⟨hx1, hy1⟩
  · exact Or.inl ⟨hx1, hy1⟩
  · exfalso
    rcases eq_or_lt_of_le ht0 with h0 | h0
    · rw [← h0] at h
      norm_num at h
      exact absurd h hx
    · have hp1 : 0 < t * y := mul_pos h0 hy1
      have hp2 : 0 ≤ (1 - t) * x := mul_nonneg (by linarith) (by linarith)
      nlinarith

/-- The propositional reading of `hesIntersect`: the proper-crossing
test, or one of the four collinear fallback branches. -/
theorem hesIntersect_true_iff (p1 q1 p2 q2 : Point) :
    hesIntersect ⟨p1, q1⟩ ⟨p2, q2⟩ = true ↔
      (((0 < cross p1 q1 p2 ∧ cross p1 q1 q2 < 0) ∨
        (cross p1 q1 p2 < 0 ∧ 0 < cross p1 q1 q2)) ∧
       ((0 < cross p2 q2 p1 ∧ cross p2 q2 q1 < 0) ∨
        (cross p2 q2 p1 < 0 ∧ 0 < cross p2 q2 q1))) ∨
      (cross p1 q1 p2 = 0 ∧ onSegmentBox p1 p2 q1 = true) ∨
      (cross p1 q1 q2 = 0 ∧ onSegmentBox p1 q2 q1 = true) ∨
      (cross p2 q2 p1 = 0 ∧ onSegmentBox p2 p1 q2 = true) ∨
      (cross p2 q2 q1 = 0 ∧ onSegmentBox p2 q1 q2 = true) := by
  unfold hesIntersect
  simp only [Bool.or_eq_true, Bool.and_eq_true, decide_eq_true_eq, or_assoc]

/-- Soundness: when the predicate answers true, the two segments really
share a point of the real plane. -/
theorem intersect_sound (p1 q1 p2 q2 : Point)
    (h : hesIntersect ⟨p1, q1⟩ ⟨p2, q2⟩ = true) :
    ∃ r : ℝ × ℝ, onSeg p1 q1 r ∧ onSeg p2 q2 r := by
  rw [hesIntersect_true_iff] at h
  rcases h with ⟨h12, h34⟩ | ⟨h0, hb⟩ | ⟨h0, hb⟩ | ⟨h0, hb⟩ | ⟨h0, hb⟩
  · exact shared_of_proper p1 q1 p2 q2 h12 h34
  · exact ⟨castPt p2, onSeg_of_collinear_box p1 q1 p2 h0 hb, onSeg_left p2 q2⟩
  · exact ⟨castPt q2, onSeg_of_collinear_box p1 q1 q2 h0 hb, onSeg_right p2 q2⟩
  · exact ⟨castPt p1, onSeg_left p1 q1, onSeg_of_collinear_box p2 q2 p1 h0 hb⟩
  · exact ⟨castPt q1, onSeg_right p1 q1, onSeg_of_collinear_box p2 q2 q1 h0 hb⟩

/-- Completeness in the fully collinear configuration: two overlapping
collinear segments trigger one of the fallback branches. -/
theorem collinear_complete (p1 q1 p2 q2 : Point) (r : ℝ × ℝ)
    (hd1 : p1 ≠ q1) (hd2 : p2 ≠ q2)
    (ho1 : cross p1 q1 p2 = 0) (ho2 : cross p1 q1 q2 = 0)
    (hr1 : onSeg p1 q1 r) (hr2 : onSeg p2 q2 r) :
    (cross p1 q1 p2 = 0 ∧ onSegmentBox p1 p2 q1 = true) ∨
    (cross p1 q1 q2 = 0 ∧ onSegmentBox p1 q2 q1 = true) ∨
    (cross p2 q2 p1 = 0 ∧ onSegmentBox p2 p1 q2 = true) := by
  obtain ⟨s, hs0, hs1, hrs⟩ := hr1
  obtain ⟨t, ht0, ht1, hrt⟩ := hr2
  have hca : crossR p1 q1 (castPt p2) = 0 := by
    rw [crossR_castPt]
    exact_mod_cast ho1
  have hcb : crossR p1 q1 (castPt q2) = 0 := by
    rw [crossR_castPt]
    exact_mod_cast ho2
  obtain ⟨a, hpa⟩ := line_param p1 q1 hd1 (castPt p2) hca
  obtain ⟨b, hpb⟩ := line_param p1 q1 hd1 (castPt q2) hcb
  have hab : a ≠ b := by
    intro he
    apply hd2
    apply castPt_inj
    rw [hpa, hpb, he]
  have hpax : (p2.x : ℝ) = (p1.x : ℝ) + a * ((q1.x : ℝ) - (p1.x : ℝ)) := by
    have h := congrArg Prod.fst hpa
    simp only [castPt, segPt] at h
    exact h
  have hpay : (p2.y : ℝ) = (p1.y : ℝ) + a * ((q1.y : ℝ) - (p1.y : ℝ)) := by
    have h := congrArg Prod.snd hpa
    simp only [castPt, segPt] at h
    exact h
  have hpbx : (q2.x : ℝ) = (p1.x : ℝ) + b * ((q1.x : ℝ) - (p1.x : ℝ)) := by
    have h := congrArg Prod.fst hpb
    simp only [castPt, segPt] at h
    exact h
  have hpby : (q2.y : ℝ) = (p1.y : ℝ) + b * ((q1.y : ℝ) - (p1.y : ℝ)) := by
    have h := congrArg Prod.snd hpb
    simp only [castPt, segPt] at h
    exact h
  have hE1x : r.1 = (p1.x : ℝ) + s * ((q1.x : ℝ) - (p1.x : ℝ)) := by
    rw [hrs]
    rfl
  have hE1y : r.2 = (p1.y : ℝ) + s * ((q1.y : ℝ) - (p1.y : ℝ)) := by
    rw [hrs]
    rfl
  have hE2x : r.1 = (p2.x : ℝ) + t * ((q2.x : ℝ) - (p2.x : ℝ)) := by
    rw [hrt]
    rfl
  have hE2y : r.2 = (p2.y : ℝ) + t * ((q2.y : ℝ) - (p2.y : ℝ)) := by
    rw [hrt]
    rfl
  have hsx : s * ((q1.x : ℝ) - (p1.x : ℝ)) = (a + t * (b - a)) * ((q1.x : ℝ) - (p1.x : ℝ)) := by
    linear_combination hE1x.symm.trans hE2x + (1 - t) * hpax + t * hpbx
  have hsy : s * ((q1.y : ℝ) - (p1.y : ℝ)) = (a + t * (b - a)) * ((q1.y : ℝ) - (p1.y : ℝ)) := by
    linear_combination hE1y.symm.trans hE2y + (1 - t) * hpay + t * hpby
  have hs_val : s = a + t * (b - a) := by
    rcases ne_cast_coords hd1 with hx | hy
    · exact mul_right_cancel₀ hx hsx
    · exact mul_right_cancel₀ hy hsy
  have hmem := interval_param_mem a b t ht0 ht1
  rw [← hs_val] at hmem
  rcases overlap_endpoint a b s hs0 hs1 hmem.1 hmem.2 with ⟨ha0, ha1⟩ | ⟨hb0, hb1⟩ | ⟨hm0, hm1⟩
  · refine Or.inl ⟨ho1, ?_⟩
    rw [onSegmentBox_iff_boxR, hpa]
    exact (boxR_segPt_iff p1 q1 hd1 a).mpr ⟨ha0, ha1⟩
  · refine Or.inr (Or.inl ⟨ho2, ?_⟩)
    rw [onSegmentBox_iff_boxR, hpb]
    exact (boxR_segPt_iff p1 q1 hd1 b).mpr ⟨hb0, hb1⟩
  · refine Or.inr (Or.inr ⟨(cross_zero_transfer hd1 ho1 ho2).1, ?_⟩)
    have hba : b - a ≠ 0 := sub_ne_zero.mpr (Ne.symm hab)
    have hc_eq : castPt p1 = segPt p2 q2 (-a / (b - a)) := by
      rw [Prod.ext_iff]
      constructor
      · show (p1.x : ℝ) = (p2.x : ℝ) + -a / (b - a) * ((q2.x : ℝ) - (p2.x : ℝ))
        field_simp
        linear_combination (a - b) * hpax + a * hpbx - a * hpax
      · show (p1.y : ℝ) = (p2.y : ℝ) + -a / (b - a) * ((q2.y : ℝ) - (p2.y : ℝ))
        field_simp
        linear_combination (a - b) * hpay + a * hpby - a * hpay
    have hc01 : 0 ≤ -a / (b - a) ∧ -a / (b - a) ≤ 1 := by
      rcases le_total a b with hab2 | hab2
      · rw [min_eq_left hab2] at hm0
        rw [max_eq_right hab2] at hm1
        have hlt : a < b := lt_of_le_of_ne hab2 hab
        constructor
        · exact div_nonneg (by linarith) (by linarith)
        · rw [div_le_one (by linarith)]
          linarith
      · rw [min_eq_right hab2] at hm0
        rw [max_eq_left hab2] at hm1
        have hlt : b < a := lt_of_le_of_ne hab2 (Ne.symm hab)
        have heq : -a / (b - a) = a / (a - b) := by
          rw [div_eq_div_iff hba (by intro hc; apply hba; linarith)]
          ring
        rw [heq]
        constructor
        · exact div_nonneg (by linarith) (by linarith)
        · rw [div_le_one (by linarith)]
          linarith
    rw [onSegmentBox_iff_boxR, hc_eq]
    exact (boxR_segPt_iff p2 q2 hd2 (-a / (b - a))).mpr hc01

/-- Completeness: whenever the two segments share a point of the real
plane, the predicate answers true. -/
theorem intersect_complete (p1 q1 p2 q2 : Point) (r : ℝ × ℝ)
    (hr1 : onSeg p1 q1 r) (hr2 : onSeg p2 q2 r) :
    hesIntersect ⟨p1, q1⟩ ⟨p2, q2⟩ = true := by
  rw [hesIntersect_true_iff]
  by_cases hd1 : p1 = q1
  · subst hd1
    rw [onSeg_self_iff] at hr1
    subst hr1
    by_cases hd2 : p2 = q2
    · subst hd2
      rw [onSeg_self_iff] at hr2
      have hpp : p2 = p1 := castPt_inj hr2.symm
      subst hpp
      refine Or.inr (Or.inl ⟨cross_base_left p2 p2, ?_⟩)
      simp [onSegmentBox]
    · rw [onSeg_iff_cross_box p2 q2 hd2] at hr2
      obtain ⟨hc, hb⟩ := hr2
      rw [crossR_castPt] at hc
      have ho3 : cross p2 q2 p1 = 0 := by exact_mod_cast hc
      exact Or.inr (Or.inr (Or.inr (Or.inl
        ⟨ho3, (onSegmentBox_iff_boxR p2 p1 q2).mpr hb⟩)))
  · by_cases hd2 : p2 = q2
    · subst hd2
      rw [onSeg_self_iff] at hr2
      subst hr2
      rw [onSeg_iff_cross_box p1 q1 hd1] at hr1
      obtain ⟨hc, hb⟩ := hr1
      rw [crossR_castPt] at hc
      have ho1 : cross p1 q1 p2 = 0 := by exact_mod_cast hc
      exact Or.inr (Or.inl ⟨ho1, (onSegmentBox_iff_boxR p1 p2 q1).mpr hb⟩)
    · obtain ⟨s, hs0, hs1, hrs⟩ := hr1
      obtain ⟨t, ht0, ht1, hrt⟩ := hr2
      have hbox1 : boxR p1 q1 r := by
        rw [hrs]
        exact (boxR_segPt_iff p1 q1 hd1 s).mpr ⟨hs0, hs1⟩
      have hbox2 : boxR p2 q2 r := by
        rw [hrt]
        exact (boxR_segPt_iff p2 q2 hd2 t).mpr ⟨ht0, ht1⟩
      have hz1 : crossR p1 q1 r = 0 := by
        rw [hrs, crossR_segPt, cross_base_left, cross_base_right]
        norm_num
      have hz2 : crossR p2 q2 r = 0 := by
        rw [hrt, crossR_segPt, cross_base_left, cross_base_right]
        norm_num
      have heval1 : (1 - t) * (cross p1 q1 p2 : ℝ) + t * (cross p1 q1 q2 : ℝ) = 0 := by
        rw [← crossR_segPt, ← hrt]
        exact hz1
      have heval2 : (1 - s) * (cross p2 q2 p1 : ℝ) + s * (cross p2 q2 q1 : ℝ) = 0 := by
        rw [← crossR_segPt, ← hrs]
        exact hz2
      by_cases ho1 : cross p1 q1 p2 = 0
      · by_cases ho2 : cross p1 q1 q2 = 0
        · rcases collinear_complete p1 q1 p2 q2 r hd1 hd2 ho1 ho2
            ⟨s, hs0, hs1, hrs⟩ ⟨t, ht0, ht1, hrt⟩ with h | h | h
          · exact Or.inr (Or.inl h)
          · exact Or.inr (Or.inr (Or.inl h))
          · exact Or.inr (Or.inr (Or.inr (Or.inl h)))
        · have ho2R : (cross p1 q1 q2 : ℝ) ≠ 0 := by exact_mod_cast ho2
          have ht : t = 0 := by
            have hmz : t * (cross p1 q1 q2 : ℝ) = 0 := by
              have ho1R : (cross p1 q1 p2 : ℝ) = 0 := by exact_mod_cast ho1
              rw [ho1R] at heval1
              linarith
            rcases mul_eq_zero.mp hmz with h | h
            · exact h
            · exact absurd h ho2R
          rw [ht, segPt_zero] at hrt
          subst hrt
          exact Or.inr (Or.inl ⟨ho1, (onSegmentBox_iff_boxR p1 p2 q1).mpr hbox1⟩)
      · by_cases ho2 : cross p1 q1 q2 = 0
        · have ho1R : (cross p1 q1 p2 : ℝ) ≠ 0 := by exact_mod_cast ho1
          have ht : t = 1 := by
            have hmz : (1 - t) * (cross p1 q1 p2 : ℝ) = 0 := by
              have ho2R : (cross p1 q1 q2 : ℝ) = 0 := by exact_mod_cast ho2
              rw [ho2R] at heval1
              linarith
            rcases mul_eq_zero.mp hmz with h | h
            · linarith [sub_eq_zero.mp h]
            · exact absurd h ho1R
          rw [ht, segPt_one] at hrt
          subst hrt
          exact Or.inr (Or.inr (Or.inl
            ⟨ho2, (onSegmentBox_iff_boxR p1 q2 q1).mpr hbox1⟩))
        · by_cases ho3 : cross p2 q2 p1 = 0
          · by_cases ho4 : cross p2 q2 q1 = 0
            · exact absurd (cross_zero_transfer hd2 ho3 ho4).1 ho1
            · have ho4R : (cross p2 q2 q1 : ℝ) ≠ 0 := by exact_mod_cast ho4
              have hs : s = 0 := by
                have hmz : s * (cross p2 q2 q1 : ℝ) = 0 := by
                  have ho3R : (cross p2 q2 p1 : ℝ) = 0 := by exact_mod_cast ho3
                  rw [ho3R] at heval2
                  linarith
                rcases mul_eq_zero.mp hmz with h | h
                · exact h
                · exact absurd h ho4R
              rw [hs, segPt_zero] at hrs
              subst hrs
              exact Or.inr (Or.inr (Or.inr (Or.inl
                ⟨ho3, (onSegmentBox_iff_boxR p2 p1 q2).mpr hbox2⟩)))
          · by_cases ho4 : cross p2 q2 q1 = 0
            · have ho3R : (cross p2 q2 p1 : ℝ) ≠ 0 := by exact_mod_cast ho3
              have hs : s = 1 := by
                have hmz : (1 - s) * (cross p2 q2 p1 : ℝ) = 0 := by
                  have ho4R : (cross p2 q2 q1 : ℝ) = 0 := by exact_mod_cast ho4
                  rw [ho4R] at heval2
                  linarith
                rcases mul_eq_zero.mp hmz with h | h
                · linarith [sub_eq_zero.mp h]
                · exact absurd h ho3R
              rw [hs, segPt_one] at hrs
              subst hrs
              exact Or.inr (Or.inr (Or.inr (Or.inr
                ⟨ho4, (onSegmentBox_iff_boxR p2 q1 q2).mpr hbox2⟩)))
            · have h12 := affine_zero_signs (cross p1 q1 p2 : ℝ) (cross p1 q1 q2 : ℝ) t
                (by exact_mod_cast ho1) (by exact_mod_cast ho2) ht0 ht1 heval1
              have h34 := affine_zero_signs (cross p2 q2 p1 : ℝ) (cross p2 q2 q1 : ℝ) s
                (by exact_mod_cast ho3) (by exact_mod_cast ho4) hs0 hs1 heval2
              refine Or.inl ⟨?_, ?_⟩
              · rcases h12 with ⟨ha, hb⟩ | ⟨ha, hb⟩
                · exact Or.inl ⟨by exact_mod_cast ha, by exact_mod_cast hb⟩
                · exact Or.inr ⟨by exact_mod_cast ha, by exact_mod_cast hb⟩
              · rcases h34 with ⟨ha, hb⟩ | ⟨ha, hb⟩
                · exact Or.inl ⟨by exact_mod_cast ha, by exact_mod_cast hb⟩
                · exact Or.inr ⟨by exact_mod_cast ha, by exact_mod_cast hb⟩

/-- C3: `hesIntersect` answers true exactly when the two segments share
at least one point of the real plane — endpoint touching, collinear
overlap and proper crossing included, and a zero-length segment counting
as the single point it degenerates to. -/
theorem claim3_hesIntersect_iff_shared_point (s1 s2 : Segment) :
    hesIntersect s1 s2 = true ↔
      ∃ r : ℝ × ℝ, onSeg s1.first s1.second r ∧ onSeg s2.first s2.second r := by
  cases s1 with
  | mk p1 q1 =>
    cases s2 with
    | mk p2 q2 =>
      constructor
      · intro h
        exact intersect_sound p1 q1 p2 q2 h
      · rintro ⟨r, h1, h2⟩
        exact intersect_complete p1 q1 p2 q2 r h1 h2

/-- C6: the segment intersection predicate is symmetric in its two
arguments. -/
theorem claim6_hesIntersect_symm (s1 s2 : Segment) :
    hesIntersect s1 s2 = hesIntersect s2 s1 := by
  cases s1 with
  | mk p1 q1 =>
    cases s2 with
    | mk p2 q2 =>
      rw [Bool.eq_iff_iff, hesIntersect_true_iff, hesIntersect_true_iff]
      constructor
      · rintro (⟨ha, hb⟩ | h | h | h | h)
        · exact Or.inl ⟨hb, ha⟩
        · exact Or.inr (Or.inr (Or.inr (Or.inl h)))
        · exact Or.inr (Or.inr (Or.inr (Or.inr h)))
        · exact Or.inr (Or.inl h)
        · exact Or.inr (Or.inr (Or.inl h))
      · rintro (⟨ha, hb⟩ | h | h | h | h)
        · exact Or.inl ⟨hb, ha⟩
        · exact Or.inr (Or.inr (Or.inr (Or.inl h)))
        · exact Or.inr (Or.inr (Or.inr (Or.inr h)))
        · exact Or.inr (Or.inl h)
        · exact Or.inr (Or.inr (Or.inl h))

end Space
